import Mathlib

set_option maxHeartbeats 4000000
set_option maxRecDepth 8000

/- Shallow embedding of the TeX-like macro preprocessor in src/src/main.rs.

   The Rust program stores the expansion stack as a reversed `String` and
   pops characters from its tail; pushing expanded text means appending the
   reversed expansion at the tail.  Under the reversal isomorphism this is
   exactly: keep the buffer in natural order as a `List Char`, consume from
   the head, and push by prepending the expansion in natural order.  The
   embedding below uses the natural-order representation throughout.

   The Rust variables `prev_state` / `update_prev_state` implement, for every
   arm of the big `match`, the same update: after each consumed character,
   `prev_state` equals the state at the start of that iteration (arms that
   change `state` save the old state and suppress the end-of-loop update;
   arms that keep `state` let the end-of-loop update store the unchanged
   state).  The embedding performs that single uniform update.

   `char::is_alphanumeric` in Rust is a Unicode predicate; the embedding uses
   `Char.isAlphanum`, which agrees with it on the ASCII scalars that appear
   in all inputs considered here.  File reads performed by `\include` are
   modelled by an explicit map `fs : List Char -> Option (List Char)` from
   paths to raw file contents; the engine additionally records every path it
   successfully reads in a ghost `log` field, so that theorems can talk about
   the exact string handed to the file system. -/

def toL (s : String) : List Char := s.toList

/-- Models Rust `char::is_alphanumeric` (they agree on ASCII scalars). -/
def isAlnum (c : Char) : Bool := c.isAlphanum

/-- The macro table: Rust `HashMap<String, String>`.  The program checks
`contains_key` before every `insert`, so keys are unique and an association
list has the same observable behaviour. -/
abbrev MacroMap := List (List Char × List Char)

/-- Rust `map.get(name)`. -/
def mapGet (m : MacroMap) (k : List Char) : Option (List Char) :=
  match m with
  | [] => none
  | (k', v) :: rest => if k' = k then some v else mapGet rest k

/-- Rust `map.contains_key(name)`. -/
def mapContains (m : MacroMap) (k : List Char) : Bool :=
  match m with
  | [] => false
  | (k', _) :: rest => k' = k || mapContains rest k

/-- Rust `map.insert(name, body)` (keys are unique when called). -/
def mapInsert (m : MacroMap) (k v : List Char) : MacroMap := (k, v) :: m

/-- Rust `map.remove(name)`: `none` exactly when the key was absent. -/
def mapRemove (m : MacroMap) (k : List Char) : Option MacroMap :=
  if mapContains m k then some (m.filter (fun p => !(p.1 == k))) else none

/- ------------------------------------------------------------------ -/
/- Comment preprocessor: `preproc_text` (src/src/main.rs lines 41-84). -/

inductive PreprocState where
  | Plain
  | CommentLine1
  | CommentLine2
deriving DecidableEq

/-- One iteration of the `for c in input_text.chars()` loop of
`preproc_text`, including the trailing `if c != '\\' { prev_is_escaped =
false }` reset. -/
def preprocStep (acc : PreprocState × Bool × List Char) (c : Char) :
    PreprocState × Bool × List Char :=
  let st := acc.1
  let prev := acc.2.1
  let out := acc.2.2
  let next :=
    match st with
    | PreprocState.Plain =>
      if c = '%' ∧ prev = false then (PreprocState.CommentLine1, prev, out)
      else if c = '\\' then (PreprocState.Plain, !prev, out ++ [c])
      else (PreprocState.Plain, false, out ++ [c])
    | PreprocState.CommentLine1 =>
      if c = '\n' then (PreprocState.CommentLine2, false, out)
      else (PreprocState.CommentLine1, prev, out)
    | PreprocState.CommentLine2 =>
      if c ≠ ' ' ∧ c ≠ '\t' then (PreprocState.Plain, prev, out ++ [c])
      else if c = '\n' then (PreprocState.CommentLine2, false, out)
      else (PreprocState.CommentLine2, prev, out)
  if c ≠ '\\' then (next.1, false, next.2.2) else next

/-- Rust `preproc_text`. -/
def preprocText (s : List Char) : List Char :=
  (s.foldl preprocStep (PreprocState.Plain, false, [])).2.2

/- ------------------------------------------------------------------- -/
/- User-macro substitution: `expand_macro` (src/src/main.rs lines 86-108). -/

/-- The body-walking loop of `expand_macro`: replace each unescaped `#` by
`arg`, tracking the escaping-backslash flag exactly as the source does. -/
def substAux (arg : List Char) : List Char → Bool → List Char
  | [], _ => []
  | c :: cs, prev =>
    (if c = '#' ∧ prev = false then arg else [c]) ++
      substAux arg cs ((c == '\\') && !prev)

/-- Rust `expand_macro`. -/
def macroExpand (m : MacroMap) (name arg : List Char) :
    Except String (List Char) :=
  match mapGet m name with
  | some body => Except.ok (substAux arg body false)
  | none => Except.error "Macro not defined."

/- ---------------------------------------------------------------- -/
/- The expansion engine: `process_str` (src/src/main.rs lines 110-461). -/

/-- Rust `enum State`. -/
inductive EState where
  | Plain
  | CallM
  | DefMacroName
  | DefArg
  | CustomMacroArg
  | Undef
  | Include
  | ExpandAfterArg1
  | ExpandAfterArg2
  | IfCond
  | Then
  | Else
  | IfDefCond
deriving DecidableEq

/-- The engine's mutable state: the locals of `process_str` plus the shared
macro table and the input (expansion stack, natural order), plus a ghost
`log` of every path read by `\include`. -/
structure Config where
  map : MacroMap
  input : List Char
  output : List Char
  macroName : List Char
  arg : List Char
  braceCount : Int
  condCount : Nat
  prevEscaping : Bool
  condIsEmpty : Bool
  prevState : EState
  state : EState
  log : List (List Char)
deriving DecidableEq

/-- The built-in dispatch performed in the `(State::CallMacro, '{', false)`
arm (src/src/main.rs lines 163-186). -/
def dispatchName (s : List Char) : EState :=
  if s = toL "def" then EState.DefMacroName
  else if s = toL "undef" then EState.Undef
  else if s = toL "include" then EState.Include
  else if s = toL "expandafter" then EState.ExpandAfterArg1
  else if s = toL "if" then EState.IfCond
  else if s = toL "ifdef" then EState.IfDefCond
  else EState.CustomMacroArg

/-- Result of consuming one character: continue with a new configuration,
abort with an error, or (for the closing brace of `expandafter`'s second
group) run a nested engine invocation on `inner` and resume through
`resume` applied to the nested output, macro table and log. -/
inductive StepOut where
  | cont (c : Config)
  | fail (msg : String)
  | nested (inner : Config)
      (resume : List Char → MacroMap → List (List Char) → Config)

/-- One iteration of the character-consumption loop of `process_str`: the
big `match (state, u, prev_is_escaping_backslash)` together with the
uniform end-of-loop updates of `prev_is_escaping_backslash` and
`prev_state`. -/
def stepChar (fs : List Char → Option (List Char)) (cfg : Config)
    (u : Char) (rest : List Char) : StepOut :=
  let e : Bool := (u == '\\') && !cfg.prevEscaping
  match cfg.state with
  | EState.Plain =>
    if u = '\\' ∧ cfg.prevEscaping = false then
      StepOut.cont { cfg with
        input := rest, prevState := EState.Plain,
        prevEscaping := e, state := EState.CallM }
    else
      StepOut.cont { cfg with
        input := rest, output := cfg.output ++ [u],
        prevState := EState.Plain, prevEscaping := e }
  | EState.CallM =>
    if cfg.prevEscaping then
      if u = '\\' ∨ u = '#' ∨ u = '%' ∨ u = '{' ∨ u = '}' then
        StepOut.cont { cfg with
          input := rest, output := cfg.output ++ [u],
          prevState := EState.CallM, prevEscaping := e, state := EState.Plain }
      else if ¬ (isAlnum u = true) then
        StepOut.cont { cfg with
          input := rest,
          output := cfg.output ++ ['\\', u],
          prevState := EState.CallM, prevEscaping := e, state := EState.Plain }
      else if cfg.prevState = EState.Plain then
        StepOut.cont { cfg with
          input := rest,
          macroName := cfg.macroName ++ [u],
          prevState := EState.CallM, prevEscaping := e }
      else
        StepOut.cont { cfg with
          input := rest,
          prevState := EState.CallM, prevEscaping := e }
    else if u = '{' then
      let st := dispatchName cfg.macroName
      StepOut.cont { cfg with
        input := rest,
        braceCount := cfg.braceCount + 1,
        macroName := if st = EState.CustomMacroArg then cfg.macroName else [],
        prevState := EState.CallM, prevEscaping := e, state := st }
    else if isAlnum u then
      StepOut.cont { cfg with
        input := rest,
        macroName := cfg.macroName ++ [u],
        prevState := EState.CallM, prevEscaping := e }
    else StepOut.fail "Non-alphanumeric in macro name"
  | EState.DefMacroName =>
    if u = '}' then
      StepOut.cont { cfg with
        input := rest,
        braceCount := cfg.braceCount - 1,
        prevState := EState.DefMacroName, prevEscaping := e,
        state := EState.DefArg }
    else if isAlnum u then
      StepOut.cont { cfg with
        input := rest,
        macroName := cfg.macroName ++ [u],
        prevState := EState.DefMacroName, prevEscaping := e }
    else StepOut.fail "Non-alphanumeric while defining macro name."
  | EState.DefArg =>
    if u = '}' ∧ cfg.prevEscaping = false then
      let bc := cfg.braceCount - 1
      if bc ≠ 0 then
        StepOut.cont { cfg with
          input := rest, braceCount := bc,
          arg := cfg.arg ++ [u],
          prevState := EState.DefArg, prevEscaping := e }
      else if mapContains cfg.map cfg.macroName then
        StepOut.fail "Macro already defined."
      else
        StepOut.cont { cfg with
          input := rest, braceCount := bc,
          map := mapInsert cfg.map cfg.macroName cfg.arg,
          macroName := [], arg := [],
          prevState := EState.DefArg, prevEscaping := e,
          state := EState.Plain }
    else if u = '{' ∧ cfg.prevEscaping = false then
      StepOut.cont { cfg with
        input := rest,
        braceCount := cfg.braceCount + 1,
        arg := if cfg.prevState = EState.DefMacroName then cfg.arg
               else cfg.arg ++ [u],
        prevState := EState.DefArg, prevEscaping := e }
    else if cfg.prevState = EState.DefMacroName then
      StepOut.fail "Incomplete macro."
    else
      StepOut.cont { cfg with
        input := rest, arg := cfg.arg ++ [u],
        prevState := EState.DefArg, prevEscaping := e }
  | EState.CustomMacroArg =>
    if u = '}' ∧ cfg.prevEscaping = false then
      let bc := cfg.braceCount - 1
      if bc = 0 then
        match macroExpand cfg.map cfg.macroName cfg.arg with
        | Except.error msg => StepOut.fail msg
        | Except.ok ex =>
          StepOut.cont { cfg with
            input := ex ++ rest, braceCount := bc,
            macroName := [], arg := [],
            prevState := EState.CustomMacroArg, prevEscaping := e,
            state := EState.Plain }
      else
        StepOut.cont { cfg with
          input := rest, braceCount := bc,
          arg := cfg.arg ++ [u],
          prevState := EState.CustomMacroArg, prevEscaping := e }
    else if u = '{' ∧ cfg.prevEscaping = false then
      StepOut.cont { cfg with
        input := rest,
        braceCount := cfg.braceCount + 1, arg := cfg.arg ++ [u],
        prevState := EState.CustomMacroArg, prevEscaping := e }
    else
      StepOut.cont { cfg with
        input := rest, arg := cfg.arg ++ [u],
        prevState := EState.CustomMacroArg, prevEscaping := e }
  | EState.Undef =>
    if u = '}' ∧ cfg.prevEscaping = false then
      let bc := cfg.braceCount - 1
      if bc = 0 then
        match mapRemove cfg.map cfg.macroName with
        | none => StepOut.fail "Macro not defined."
        | some m' =>
          StepOut.cont { cfg with
            input := rest, braceCount := bc,
            map := m', macroName := [],
            prevState := EState.Undef, prevEscaping := e,
            state := EState.Plain }
      else StepOut.fail "Incomplete macro."
    else if isAlnum u then
      StepOut.cont { cfg with
        input := rest,
        macroName := cfg.macroName ++ [u],
        prevState := EState.Undef, prevEscaping := e }
    else StepOut.fail "Non-alphanumeric in un-define."
  | EState.Include =>
    if u = '}' ∧ cfg.prevEscaping = false then
      let bc := cfg.braceCount - 1
      if bc = 0 then
        match fs cfg.arg with
        | some content =>
          StepOut.cont { cfg with
            input := preprocText content ++ rest,
            braceCount := bc, arg := [], log := cfg.log ++ [cfg.arg],
            prevState := EState.Include, prevEscaping := e,
            state := EState.Plain }
        | none => StepOut.fail "Include error."
      else
        StepOut.cont { cfg with
          input := rest, braceCount := bc,
          arg := cfg.arg ++ [u],
          prevState := EState.Include, prevEscaping := e }
    else if u = '{' ∧ cfg.prevEscaping = false then
      StepOut.cont { cfg with
        input := rest,
        braceCount := cfg.braceCount + 1,
        prevState := EState.Include, prevEscaping := e }
    else
      StepOut.cont { cfg with
        input := rest, arg := cfg.arg ++ [u],
        prevState := EState.Include, prevEscaping := e }
  | EState.ExpandAfterArg1 =>
    if u = '}' ∧ cfg.prevEscaping = false then
      let bc := cfg.braceCount - 1
      if bc = 0 then
        StepOut.cont { cfg with
          input := rest, braceCount := bc,
          prevState := EState.ExpandAfterArg1, prevEscaping := e,
          state := EState.ExpandAfterArg2 }
      else
        StepOut.cont { cfg with
          input := rest, braceCount := bc,
          macroName := cfg.macroName ++ [u],
          prevState := EState.ExpandAfterArg1, prevEscaping := e }
    else if u = '{' ∧ cfg.prevEscaping = false then
      StepOut.cont { cfg with
        input := rest,
        braceCount := cfg.braceCount + 1,
        macroName := cfg.macroName ++ [u],
        prevState := EState.ExpandAfterArg1, prevEscaping := e }
    else
      StepOut.cont { cfg with
        input := rest,
        macroName := cfg.macroName ++ [u],
        prevState := EState.ExpandAfterArg1, prevEscaping := e }
  | EState.ExpandAfterArg2 =>
    if u = '}' ∧ cfg.prevEscaping = false then
      let bc := cfg.braceCount - 1
      if bc = 0 then
        StepOut.nested
          { cfg with
            input := cfg.arg, output := [], macroName := [],
            arg := [], braceCount := 0, condCount := 0,
            prevEscaping := false, condIsEmpty := false,
            prevState := EState.Plain, state := EState.Plain }
          (fun o m l =>
            { cfg with
              map := m, log := l,
              input := cfg.macroName ++ o ++ rest,
              macroName := [], arg := [], braceCount := bc,
              prevState := EState.ExpandAfterArg2, prevEscaping := e,
              state := EState.Plain })
      else
        StepOut.cont { cfg with
          input := rest, braceCount := bc,
          arg := cfg.arg ++ [u],
          prevState := EState.ExpandAfterArg2, prevEscaping := e }
    else if u = '{' ∧ cfg.prevEscaping = false then
      StepOut.cont { cfg with
        input := rest,
        braceCount := cfg.braceCount + 1,
        arg := if cfg.prevState = EState.ExpandAfterArg1 then cfg.arg
               else cfg.arg ++ [u],
        prevState := EState.ExpandAfterArg2, prevEscaping := e }
    else
      StepOut.cont { cfg with
        input := rest, arg := cfg.arg ++ [u],
        prevState := EState.ExpandAfterArg2, prevEscaping := e }
  | EState.IfCond =>
    if u = '}' ∧ cfg.prevEscaping = false then
      let bc := cfg.braceCount - 1
      if bc = 0 then
        StepOut.cont { cfg with
          input := rest, braceCount := bc,
          condIsEmpty := decide (cfg.condCount = 0), condCount := 0,
          prevState := EState.IfCond, prevEscaping := e,
          state := EState.Then }
      else
        StepOut.cont { cfg with
          input := rest, braceCount := bc,
          condCount := cfg.condCount + 1,
          prevState := EState.IfCond, prevEscaping := e }
    else if u = '{' ∧ cfg.prevEscaping = false then
      StepOut.cont { cfg with
        input := rest,
        braceCount := cfg.braceCount + 1,
        condCount := cfg.condCount + 1,
        prevState := EState.IfCond, prevEscaping := e }
    else
      StepOut.cont { cfg with
        input := rest,
        condCount := cfg.condCount + 1,
        prevState := EState.IfCond, prevEscaping := e }
  | EState.Then =>
    if u = '}' ∧ cfg.prevEscaping = false then
      let bc := cfg.braceCount - 1
      if bc = 0 then
        StepOut.cont { cfg with
          input := rest, braceCount := bc,
          prevState := EState.Then, prevEscaping := e,
          state := EState.Else }
      else
        StepOut.cont { cfg with
          input := rest, braceCount := bc,
          macroName := if cfg.condIsEmpty then cfg.macroName
                       else cfg.macroName ++ [u],
          prevState := EState.Then, prevEscaping := e }
    else if u = '{' ∧ cfg.prevEscaping = false then
      StepOut.cont { cfg with
        input := rest,
        braceCount := cfg.braceCount + 1,
        macroName := if cfg.condIsEmpty = false ∧
            cfg.prevState ≠ EState.IfCond ∧ cfg.prevState ≠ EState.IfDefCond
          then cfg.macroName ++ [u] else cfg.macroName,
        prevState := EState.Then, prevEscaping := e }
    else if cfg.prevState = EState.IfCond ∨ cfg.prevState = EState.IfDefCond
    then StepOut.fail "Incomplete macro."
    else
      StepOut.cont { cfg with
        input := rest,
        macroName := if cfg.condIsEmpty then cfg.macroName
                     else cfg.macroName ++ [u],
        prevState := EState.Then, prevEscaping := e }
  | EState.Else =>
    if u = '}' ∧ cfg.prevEscaping = false then
      let bc := cfg.braceCount - 1
      if bc = 0 then
        StepOut.cont { cfg with
          input := cfg.macroName ++ rest,
          braceCount := bc, macroName := [],
          prevState := EState.Else, prevEscaping := e,
          state := EState.Plain }
      else
        StepOut.cont { cfg with
          input := rest, braceCount := bc,
          macroName := if cfg.condIsEmpty then cfg.macroName ++ [u]
                       else cfg.macroName,
          prevState := EState.Else, prevEscaping := e }
    else if u = '{' ∧ cfg.prevEscaping = false then
      StepOut.cont { cfg with
        input := rest,
        braceCount := cfg.braceCount + 1,
        macroName := if cfg.condIsEmpty = true ∧ cfg.prevState ≠ EState.Then
          then cfg.macroName ++ [u] else cfg.macroName,
        prevState := EState.Else, prevEscaping := e }
    else if cfg.prevState = EState.Then then
      StepOut.fail "Incomplete macro."
    else
      StepOut.cont { cfg with
        input := rest,
        macroName := if cfg.condIsEmpty then cfg.macroName ++ [u]
                     else cfg.macroName,
        prevState := EState.Else, prevEscaping := e }
  | EState.IfDefCond =>
    if u = '}' ∧ cfg.prevEscaping = false then
      let bc := cfg.braceCount - 1
      if bc = 0 then
        StepOut.cont { cfg with
          input := rest, braceCount := bc,
          condIsEmpty := !(mapContains cfg.map cfg.macroName),
          macroName := [],
          prevState := EState.IfDefCond, prevEscaping := e,
          state := EState.Then }
      else
        StepOut.cont { cfg with
          input := rest, braceCount := bc,
          condCount := cfg.condCount + 1,
          prevState := EState.IfDefCond, prevEscaping := e }
    else if u = '{' ∧ cfg.prevEscaping = false then
      StepOut.cont { cfg with
        input := rest,
        braceCount := cfg.braceCount + 1,
        macroName := cfg.macroName ++ [u],
        prevState := EState.IfDefCond, prevEscaping := e }
    else
      StepOut.cont { cfg with
        input := rest,
        macroName := cfg.macroName ++ [u],
        prevState := EState.IfDefCond, prevEscaping := e }

/-- Result of a whole engine run.  `timeout` is the fuel-exhaustion marker of
the embedding; the Rust loop has no such case. -/
inductive Outcome where
  | ok (out : List Char) (m : MacroMap) (log : List (List Char))
  | err (msg : String)
  | timeout
deriving DecidableEq

/-- The end-of-input check of `process_str` (src/src/main.rs lines 453-460). -/
def endCheck (cfg : Config) : Outcome :=
  if cfg.state ≠ EState.Plain ∨ cfg.braceCount ≠ 0 then
    if cfg.state = EState.CallM ∧ cfg.prevEscaping = true then
      Outcome.ok (cfg.output ++ ['\\']) cfg.map cfg.log
    else Outcome.err "Incomplete macro."
  else Outcome.ok cfg.output cfg.map cfg.log

/-- Rust `process_str`, as a fuel-indexed run from an arbitrary
configuration.  One unit of fuel is spent per consumed character; the
nested invocation made by `expandafter` runs on the remaining fuel. -/
def runFrom (fs : List Char → Option (List Char)) :
    Nat → Config → Outcome
  | 0, _ => Outcome.timeout
  | n + 1, cfg =>
    match cfg.input with
    | [] => endCheck cfg
    | u :: rest =>
      match stepChar fs cfg u rest with
      | StepOut.cont c' => runFrom fs n c'
      | StepOut.fail msg => Outcome.err msg
      | StepOut.nested inner resume =>
        match runFrom fs n inner with
        | Outcome.ok o m l => runFrom fs n (resume o m l)
        | Outcome.err msg => Outcome.err msg
        | Outcome.timeout => Outcome.timeout

/-- The character-consumption loop in small steps: `stepN fs n cfg` is the
configuration after `n` consumed characters (stopping at end of input, on
an error, and at a nested `expandafter` invocation). -/
def stepN (fs : List Char → Option (List Char)) :
    Nat → Config → Option Config
  | 0, cfg => some cfg
  | n + 1, cfg =>
    match cfg.input with
    | [] => none
    | u :: rest =>
      match stepChar fs cfg u rest with
      | StepOut.cont c' => stepN fs n c'
      | _ => none

/-- The initial configuration of `process_str` on a given input. -/
def initConfig (input : List Char) : Config :=
  { map := [], input := input, output := [], macroName := [], arg := [],
    braceCount := 0, condCount := 0, prevEscaping := false,
    condIsEmpty := false, prevState := EState.Plain, state := EState.Plain,
    log := [] }

/-- A file system with no readable files. -/
def noFs : List Char → Option (List Char) := fun _ => none

/-- Run the engine on an input document, with no readable files. -/
def engineRun (fuel : Nat) (s : List Char) : Outcome :=
  runFrom noFs fuel (initConfig s)

/- ------------------------------------------- -/
/- Auxiliary notions used by the claim theorems. -/

/-- Brace contribution of one character (+1 for `{`, -1 for `}`). -/
def braceDelta (c : Char) : Int :=
  if c = '{' then 1 else if c = '}' then -1 else 0

/-- Sum of brace contributions. -/
def deltaSum : List Char → Int
  | [] => 0
  | c :: cs => braceDelta c + deltaSum cs

/-- Segments free of `#` and `\`, through which substitution copies. -/
def cleanSeg (s : List Char) : Prop := ∀ c ∈ s, c ≠ '#' ∧ c ≠ '\\'

/-- Every key of the macro table is a string of alphanumeric scalars. -/
def keysAlnum (m : MacroMap) : Prop := ∀ p ∈ m, p.1.all isAlnum = true

/-- The invariant behind the amended depth claim: in modes `Plain` and
`CallMacro` the brace counter is `0`, and while collecting a new macro name
the collected name is alphanumeric. -/
def goodCfg (cfg : Config) : Prop :=
  keysAlnum cfg.map ∧
  ((cfg.state = EState.DefMacroName ∨ cfg.state = EState.DefArg) →
    cfg.macroName.all isAlnum = true)

/-- In modes `Plain` and `CallMacro` the brace counter is `0`. -/
def zeroAtPlain (cfg : Config) : Prop :=
  (cfg.state = EState.Plain ∨ cfg.state = EState.CallM) → cfg.braceCount = 0

/- Concrete inputs used by counterexamples and witnesses. -/

def c1input : List Char :=
  toL "\\def\x7bid\x7d\x7b#\x7d\\expandafter\x7b\\id\x7d\x7braw\x7d"

def c2input : List Char := toL "A % comment\n  B"

def c3input : List Char := toL "\\if\x7bx\x7d\x7bT\x7d\x7d\x7b\x7b\x7d"

def c4input : List Char := toL "\\def\x7b\x7d\x7bx\x7d"

def c5input : List Char :=
  toL "\\def\x7ba\x7d\x7bA\x7d\\def\x7bm\x7d\x7b#\\##\x7d\\m\x7b\\a\x7b\x7d\x7d"

def c8okInput : List Char := toL "a\\"

def c8badInput : List Char := toL "\\def\x7ba\x7d\x7bx"

def c9input : List Char := toL "\\include\x7ba\x7bb\x7dc\x7d"

/-- A file system holding one file whose path is `ab}c`. -/
def c9fs : List Char → Option (List Char) :=
  fun p => if p = toL "ab\x7dc" then some (toL "Z") else none

/-- A file system holding one file whose path is `q`. -/
def c9wfs : List Char → Option (List Char) :=
  fun q => if q = toL "q" then some (toL "YY") else none

def c10input : List Char :=
  toL "\\def\x7bif\x7d\x7bX\x7d\\ifdef\x7bif\x7d\x7bY\x7d\x7bZ\x7d\\if\x7ba\x7d\x7bT\x7d\x7bE\x7d"

/-- The input of an `\if` directive with condition `C` and branches `T`, `E`. -/
def ifInput (C T E : List Char) : List Char :=
  '\\' :: 'i' :: 'f' :: '{' :: (C ++ '}' :: '{' :: (T ++ '}' :: '{' :: (E ++ ['}'])))

/- ------------------------------------------------------------------ -/
/- Basic run lemmas. -/

/-- Unfolding lemma: consuming one character that yields a continuation. -/
theorem runFrom_cont (fs : List Char → Option (List Char)) (n : Nat)
    (cfg c' : Config) (u : Char) (rest : List Char)
    (h1 : cfg.input = u :: rest)
    (h2 : stepChar fs cfg u rest = StepOut.cont c') :
    runFrom fs (n + 1) cfg = runFrom fs n c' := by
  simp only [runFrom, h1, h2]

/-- Fuel is monotone: once a run finishes (successfully or with an error),
giving it more fuel does not change the result. -/
theorem runFrom_mono (fs : List Char → Option (List Char)) :
    ∀ (n k : Nat) (cfg : Config), runFrom fs n cfg ≠ Outcome.timeout →
      runFrom fs (n + k) cfg = runFrom fs n cfg := by
  intro n
  induction n with
  | zero => intro k cfg h; exact absurd rfl h
  | succ n ih =>
    intro k cfg h
    have hs : n + 1 + k = (n + k) + 1 := by omega
    rw [hs]
    simp only [runFrom] at h ⊢
    cases hin : cfg.input with
    | nil => simp only [hin]
    | cons u rest =>
      simp only [hin] at h ⊢
      cases hstep : stepChar fs cfg u rest with
      | cont c' =>
        simp only [hstep] at h ⊢
        exact ih k c' h
      | fail msg => simp only [hstep]
      | nested inner resume =>
        simp only [hstep] at h ⊢
        cases hI : runFrom fs n inner with
        | ok o m l =>
          have hne : runFrom fs n inner ≠ Outcome.timeout := by
            rw [hI]; intro hc; cases hc
          rw [ih k inner hne, hI]
          simp only [hI] at h
          exact ih k (resume o m l) h
        | err msg =>
          have hne : runFrom fs n inner ≠ Outcome.timeout := by
            rw [hI]; intro hc; cases hc
          rw [ih k inner hne, hI]
        | timeout =>
          simp only [hI] at h
          exact absurd rfl h

/- ------------------------------------------------------------------ -/
/- Claim C1. -/

/-- C1, counterexample: on `\def{id}{#}\expandafter{\id}{raw}` the engine
does not succeed with output `raw`; it fails with "Incomplete macro."
(fuel 50 is more than the 40 characters the run consumes). -/
theorem c1_counterexample :
    engineRun 50 c1input = Outcome.err "Incomplete macro." := by decide

/-- C1 (amended): on `\def{id}{#}\expandafter{\id}{raw}` the engine first
recursively expands B (`raw` expands to itself) and pushes it, then pushes
the raw A (`\id`), exactly as the spec describes; but the re-scan of
`\id` followed by `raw` extends the macro-name scan through the letters
`r`, `a`, `w` (an invocation needs a braced argument), so end-of-input
arrives in mode CallMacro and the run fails with "Incomplete macro."
for every sufficient fuel. -/
theorem c1_amended_run (fuel : Nat) (h : 50 ≤ fuel) :
    engineRun fuel c1input = Outcome.err "Incomplete macro." := by
  obtain ⟨k, rfl⟩ : ∃ k, fuel = 50 + k := ⟨fuel - 50, by omega⟩
  have h50 : runFrom noFs 50 (initConfig c1input) =
      Outcome.err "Incomplete macro." := by decide
  show runFrom noFs (50 + k) (initConfig c1input) = _
  rw [runFrom_mono noFs 50 k _ (by rw [h50]; intro hc; cases hc), h50]

/-- C1, witness for the amended theorem at fuel 50. -/
theorem c1_witness :
    engineRun 50 c1input = Outcome.err "Incomplete macro." :=
  c1_amended_run 50 (by omega)

/- ------------------------------------------------------------------ -/
/- Claim C2. -/

/-- C2, counterexample: on `A % comment\n  B` the Comment Preprocessor does
not output `AB`. -/
theorem c2_counterexample : preprocText c2input ≠ toL "AB" := by decide

/-- C2 (amended): on `A % comment\n  B` the Comment Preprocessor outputs
`A B` (with the space that precedes the `%`): the comment starts at the
unescaped `%` itself, so the scalars before it — including the space —
are copied; the comment is discarded through its newline and the two
leading spaces of the next line are elided. -/
theorem c2_amended_preproc : preprocText c2input = toL "A B" := by decide

/- ------------------------------------------------------------------ -/
/- Claim C3, counterexample. -/

/-- C3, counterexample: on `\if{x}{T}}{{}` the brace-depth counter is `-1`
after 10 consumed characters (the stray `}` after the then-branch
decrements it below zero), and the very same run afterwards completes
successfully with output `T` — so depth `-1` occurs at a step of a
genuine (even succeeding) run. -/
theorem c3_counterexample :
    (stepN noFs 10 (initConfig c3input)).map Config.braceCount = some (-1) ∧
    engineRun 20 c3input = Outcome.ok (toL "T") [] [] :=
  ⟨by decide, by decide⟩

/- ------------------------------------------------------------------ -/
/- Claim C4, counterexample. -/

/-- C4, counterexample: `\def{}{x}` succeeds and inserts a binding for the
empty name: `DefMacroName` accepts an immediate `}` without checking that
the collected name is nonempty. -/
theorem c4_counterexample :
    engineRun 20 c4input = Outcome.ok [] [([], toL "x")] [] ∧
    ([] : List Char) ∈ ([([], toL "x")] : MacroMap).map Prod.fst :=
  ⟨by decide, by decide⟩

/- ------------------------------------------------------------------ -/
/- Claim C9, counterexample. -/

/-- C9, counterexample: for `\include{a{b}c}` the path handed to the file
system is `ab}c`, not the literal argument text `a{b}c`: the `{` arm of
the Include mode increments the depth but drops the `{`, while a `}` at
inner depth is kept.  With a file system mapping `ab}c` to content `Z`
the run succeeds and its read log records exactly `ab}c`. -/
theorem c9_counterexample :
    runFrom c9fs 30 (initConfig c9input) =
      Outcome.ok (toL "Z") [] [toL "ab\x7dc"] ∧
    toL "ab\x7dc" ≠ toL "a\x7bb\x7dc" :=
  ⟨by decide, by decide⟩

/-- `dispatchName` never yields `Plain`. -/
theorem dispatchName_ne_plain (s : List Char) :
    ¬ dispatchName s = EState.Plain := by
  unfold dispatchName
  split_ifs <;> decide

/-- `dispatchName` never yields `CallMacro`. -/
theorem dispatchName_ne_callm (s : List Char) :
    ¬ dispatchName s = EState.CallM := by
  unfold dispatchName
  split_ifs <;> decide

/-- `dispatchName` never yields `DefArg`. -/
theorem dispatchName_ne_defarg (s : List Char) :
    ¬ dispatchName s = EState.DefArg := by
  unfold dispatchName
  split_ifs <;> decide

/-- One consumed character preserves the Plain-depth invariant. -/
theorem stepChar_zero (fs : List Char → Option (List Char)) (cfg c' : Config)
    (u : Char) (rest : List Char)
    (hg : zeroAtPlain cfg)
    (h : stepChar fs cfg u rest = StepOut.cont c') : zeroAtPlain c' := by
  unfold zeroAtPlain at hg ⊢
  simp only [stepChar] at h
  split at h <;> rename_i hst
  all_goals (repeat' split at h)
  all_goals
    first
    | (exact StepOut.noConfusion h)
    | (injection h with h2; subst h2; intro hd;
       simp_all [dispatchName_ne_plain, dispatchName_ne_callm])

/-- The character-consumption loop preserves the Plain-depth invariant. -/
theorem stepN_zero (fs : List Char → Option (List Char)) :
    ∀ (n : Nat) (cfg c' : Config), zeroAtPlain cfg →
      stepN fs n cfg = some c' → zeroAtPlain c' := by
  intro n
  induction n with
  | zero =>
    intro cfg c' hg h
    simp only [stepN] at h
    injection h with h2
    subst h2
    exact hg
  | succ n ih =>
    intro cfg c' hg h
    simp only [stepN] at h
    cases hin : cfg.input with
    | nil => simp [hin] at h
    | cons u rest =>
      simp only [hin] at h
      cases hstep : stepChar fs cfg u rest with
      | cont c'' =>
        simp only [hstep] at h
        exact ih c'' c' (stepChar_zero fs cfg c'' u rest hg hstep) h
      | fail msg => simp [hstep] at h
      | nested inner resume => simp [hstep] at h

/-- C3 (amended): the brace-depth counter equals `0` (in particular is
nonnegative) at every step of the loop at which the mode is `Plain` or
`CallMacro`; it is not nonnegative at every step in every other mode — a
stray unescaped `}` between captured groups can drive it negative even in
a run that then completes successfully (see the counterexample). -/
theorem c3_amended_invariant (fs : List Char → Option (List Char))
    (input : List Char) (n : Nat) (c' : Config)
    (h : stepN fs n (initConfig input) = some c')
    (hs : c'.state = EState.Plain ∨ c'.state = EState.CallM) :
    c'.braceCount = 0 :=
  stepN_zero fs n (initConfig input) c' (fun _ => rfl) h hs

/-- C3, witness: the configuration reached after consuming `ab` is in mode
`Plain` and indeed has brace depth `0`. -/
theorem c3_witness :
    ({ initConfig [] with output := toL "ab" } : Config).braceCount = 0 :=
  c3_amended_invariant noFs (toL "ab") 2
    { initConfig [] with output := toL "ab" } (by decide) (Or.inl (by decide))

/-- Inserting an alphanumeric key preserves `keysAlnum`. -/
theorem keysAlnum_insert (m : MacroMap) (k v : List Char)
    (hm : keysAlnum m) (hk : k.all isAlnum = true) :
    keysAlnum (mapInsert m k v) := by
  intro p hp
  rcases List.mem_cons.mp hp with h1 | h2
  · subst h1; exact hk
  · exact hm p h2

/-- Removing a key preserves `keysAlnum`. -/
theorem keysAlnum_remove (m m' : MacroMap) (k : List Char)
    (hm : keysAlnum m) (h : mapRemove m k = some m') : keysAlnum m' := by
  unfold mapRemove at h
  split at h
  · injection h with h2
    subst h2
    intro p hp
    exact hm p (List.mem_of_mem_filter hp)
  · cases h

/-- One consumed character preserves `goodCfg`. -/
theorem stepChar_good (fs : List Char → Option (List Char)) (cfg c' : Config)
    (u : Char) (rest : List Char)
    (hg : goodCfg cfg)
    (h : stepChar fs cfg u rest = StepOut.cont c') : goodCfg c' := by
  obtain ⟨hm, hn⟩ := hg
  unfold goodCfg
  simp only [stepChar] at h
  split at h <;> rename_i hst
  all_goals (repeat' split at h)
  all_goals
    first
    | (exact StepOut.noConfusion h)
    | (injection h with h2; subst h2;
       refine ⟨?_, ?_⟩ <;>
       first
       | (exact hm)
       | (exact keysAlnum_insert _ _ _ hm (hn (Or.inr hst)))
       | (exact keysAlnum_remove _ _ _ hm (by assumption))
       | (intro hd;
          simp_all [dispatchName_ne_defarg, List.all_append] <;> omega))

/-- Shape of the nested `expandafter` invocation: the inner run starts in
mode `Plain` with the shared macro table, and the resumed configuration
adopts the table returned by the inner run. -/
theorem stepChar_nested (fs : List Char → Option (List Char)) (cfg : Config)
    (u : Char) (rest : List Char) (inner : Config)
    (resume : List Char → MacroMap → List (List Char) → Config)
    (h : stepChar fs cfg u rest = StepOut.nested inner resume) :
    inner.map = cfg.map ∧ inner.state = EState.Plain ∧
      ∀ o m l, (resume o m l).map = m ∧ (resume o m l).state = EState.Plain := by
  simp only [stepChar] at h
  split at h <;> rename_i hst
  all_goals (repeat' split at h)
  all_goals
    first
    | (exact StepOut.noConfusion h)
    | (injection h with h1 h2; subst h1; subst h2;
       exact ⟨rfl, rfl, fun o m l => ⟨rfl, rfl⟩⟩)

/-- Any successful run from a good configuration yields a macro table all
of whose keys are alphanumeric strings. -/
theorem runFrom_keys (fs : List Char → Option (List Char)) :
    ∀ (n : Nat) (cfg : Config) (out : List Char) (m : MacroMap)
      (l : List (List Char)), goodCfg cfg →
      runFrom fs n cfg = Outcome.ok out m l → keysAlnum m := by
  intro n
  induction n with
  | zero =>
    intro cfg out m l hg h
    simp only [runFrom] at h
    cases h
  | succ n ih =>
    intro cfg out m l hg h
    simp only [runFrom] at h
    cases hin : cfg.input with
    | nil =>
      simp only [hin] at h
      unfold endCheck at h
      split at h
      · split at h
        · injection h with h1 h2 h3
          subst h2
          exact hg.1
        · cases h
      · injection h with h1 h2 h3
        subst h2
        exact hg.1
    | cons u rest =>
      simp only [hin] at h
      cases hstep : stepChar fs cfg u rest with
      | cont c' =>
        simp only [hstep] at h
        exact ih c' out m l (stepChar_good fs cfg c' u rest hg hstep) h
      | fail msg => simp only [hstep] at h; cases h
      | nested inner resume =>
        simp only [hstep] at h
        obtain ⟨hmap, hstate, hres⟩ := stepChar_nested fs cfg u rest inner resume hstep
        cases hI : runFrom fs n inner with
        | ok o m0 l0 =>
          simp only [hI] at h
          have hgi : goodCfg inner := by
            refine ⟨by rw [hmap]; exact hg.1, ?_⟩
            intro hd
            rw [hstate] at hd
            rcases hd with hd | hd <;> cases hd
          have hk0 : keysAlnum m0 := ih inner o m0 l0 hgi hI
          have hgr : goodCfg (resume o m0 l0) := by
            refine ⟨by rw [(hres o m0 l0).1]; exact hk0, ?_⟩
            intro hd
            rw [(hres o m0 l0).2] at hd
            rcases hd with hd | hd <;> cases hd
          exact ih (resume o m0 l0) out m l hgr h
        | err msg => simp only [hI] at h; cases h
        | timeout => simp only [hI] at h; cases h

/-- C4 (amended): every key of the macro table produced by a successful
engine run is a (possibly empty) sequence of alphanumeric scalars:
`DefMacroName` only ever accepts alphanumeric scalars into a name, but no
nonemptiness check is made, so `\def` with an empty first group does
create a binding for the empty name (see the counterexample; such a
binding can never be invoked, because the character after the invoking
backslash is consumed with the escape flag set). -/
theorem c4_amended_keys (fs : List Char → Option (List Char))
    (input : List Char) (fuel : Nat) (out : List Char) (m : MacroMap)
    (l : List (List Char))
    (h : runFrom fs fuel (initConfig input) = Outcome.ok out m l) :
    keysAlnum m :=
  runFrom_keys fs fuel (initConfig input) out m l
    ⟨fun p hp => absurd hp (List.not_mem_nil p), fun hd => rfl⟩ h

/-- C4, witness: the run of `\def{a}{x}` ends with table `[(a, x)]`, whose
keys are all alphanumeric. -/
theorem c4_witness : keysAlnum [(toL "a", toL "x")] :=
  c4_amended_keys noFs (toL "\\def\x7ba\x7d\x7bx\x7d") 20 []
    [(toL "a", toL "x")] [] (by decide)

/-- Substitution is the identity on clean segments. -/
theorem substAux_clean (arg : List Char) :
    ∀ (s : List Char), cleanSeg s → substAux arg s false = s := by
  intro s
  induction s with
  | nil => intro _; rfl
  | cons c cs ih =>
    intro h
    have hc := h c (List.mem_cons_self c cs)
    have hcs : cleanSeg cs := fun d hd => h d (List.mem_cons_of_mem c hd)
    have hb : (c == '\\') = false := by simp [hc.2]
    simp [substAux, hc.1, hb, ih hcs]

/-- An unescaped `#` between clean segments is replaced by the argument. -/
theorem substAux_hash (arg pre post : List Char)
    (hpre : cleanSeg pre) (hpost : cleanSeg post) :
    substAux arg (pre ++ '#' :: post) false = pre ++ arg ++ post := by
  induction pre with
  | nil =>
    have hb : ('#' == '\\') = false := rfl
    simp [substAux, hb, substAux_clean arg post hpost]
  | cons c cs ih =>
    have hc := hpre c (List.mem_cons_self c cs)
    have hcs : cleanSeg cs := fun d hd => hpre d (List.mem_cons_of_mem c hd)
    have hb : (c == '\\') = false := by simp [hc.2]
    simp [substAux, hc.1, hb, ih hcs]

/-- A `\#` between clean segments is left untouched by substitution. -/
theorem substAux_escaped (arg pre post : List Char)
    (hpre : cleanSeg pre) (hpost : cleanSeg post) :
    substAux arg (pre ++ '\\' :: '#' :: post) false =
      pre ++ '\\' :: '#' :: post := by
  induction pre with
  | nil =>
    have hb1 : ('\\' == '\\') = true := rfl
    have hb2 : ('#' == '\\') = false := rfl
    simp [substAux, hb1, hb2, substAux_clean arg post hpost]
  | cons c cs ih =>
    have hc := hpre c (List.mem_cons_self c cs)
    have hcs : cleanSeg cs := fun d hd => hpre d (List.mem_cons_of_mem c hd)
    have hb : (c == '\\') = false := by simp [hc.2]
    simp [substAux, hc.1, hb, ih hcs]

/-- C5: user-macro substitution replaces each unescaped `#` in the bound
body by the captured argument inserted verbatim, while a `\#` in the body
survives substitution unchanged; its re-scan then yields a literal `#` in
the final output rather than the argument, and the argument's own
expansion happens only on re-scan.  The first two conjuncts characterise
the substitution walk (`substAux`, the loop of `expand_macro`) on bodies
split around an unescaped `#` and around `\#`; the third is the complete
run of `\def{a}{A}\def{m}{#\##}\m{\a{}}`, whose output `A#A` shows the
verbatim-inserted argument `\a{}` expanded on re-scan on both sides of
the literal `#` produced by `\#`. -/
theorem c5_substitution :
    (∀ (arg pre post : List Char), cleanSeg pre → cleanSeg post →
        substAux arg (pre ++ '#' :: post) false = pre ++ arg ++ post) ∧
    (∀ (arg pre post : List Char), cleanSeg pre → cleanSeg post →
        substAux arg (pre ++ '\\' :: '#' :: post) false =
          pre ++ '\\' :: '#' :: post) ∧
    engineRun 60 c5input =
      Outcome.ok (toL "A#A")
        [(toL "m", toL "#\\##"), (toL "a", toL "A")] [] :=
  ⟨substAux_hash, substAux_escaped, by decide⟩

/-- C5, witness: substituting `Z` into body `x#y`. -/
theorem c5_witness :
    substAux (toL "Z") (toL "x" ++ '#' :: toL "y") false =
      toL "x" ++ toL "Z" ++ toL "y" :=
  c5_substitution.1 (toL "Z") (toL "x") (toL "y") (by unfold cleanSeg; decide) (by unfold cleanSeg; decide)

/-- C7: from mode Plain, a backslash followed by one of `\ # % { }`
appends exactly that literal character to the output and returns to
Plain; a backslash followed by any other non-alphanumeric scalar appends
the two-character sequence (backslash, then the scalar) and returns to
Plain. -/
theorem c7_escape_set (fs : List Char → Option (List Char)) (n : Nat)
    (cfg : Config) (c : Char) (rest : List Char)
    (hst : cfg.state = EState.Plain) (hesc : cfg.prevEscaping = false)
    (hin : cfg.input = '\\' :: c :: rest) :
    ((c = '\\' ∨ c = '#' ∨ c = '%' ∨ c = '{' ∨ c = '}') →
      runFrom fs (n + 2) cfg = runFrom fs n { cfg with
        input := rest, output := cfg.output ++ [c],
        prevState := EState.CallM, prevEscaping := false,
        state := EState.Plain }) ∧
    ((¬ (c = '\\' ∨ c = '#' ∨ c = '%' ∨ c = '{' ∨ c = '}')) →
      isAlnum c = false →
      runFrom fs (n + 2) cfg = runFrom fs n { cfg with
        input := rest, output := cfg.output ++ ['\\', c],
        prevState := EState.CallM, prevEscaping := false,
        state := EState.Plain }) := by
  have h1 : stepChar fs cfg '\\' (c :: rest) = StepOut.cont { cfg with
      input := c :: rest, prevState := EState.Plain,
      prevEscaping := true, state := EState.CallM } := by
    simp [stepChar, hst, hesc]
  constructor
  · intro hc
    have h2 : stepChar fs { cfg with
        input := c :: rest, prevState := EState.Plain,
        prevEscaping := true, state := EState.CallM } c rest =
        StepOut.cont { cfg with
          input := rest, output := cfg.output ++ [c],
          prevState := EState.CallM, prevEscaping := false,
          state := EState.Plain } := by
      simp only [stepChar]
      rw [if_pos hc]
      simp
    rw [show n + 2 = (n + 1) + 1 by rfl,
      runFrom_cont fs (n + 1) cfg _ '\\' (c :: rest) hin h1,
      runFrom_cont fs n _ _ c rest rfl h2]
  · intro hc hal
    have h2 : stepChar fs { cfg with
        input := c :: rest, prevState := EState.Plain,
        prevEscaping := true, state := EState.CallM } c rest =
        StepOut.cont { cfg with
          input := rest, output := cfg.output ++ ['\\', c],
          prevState := EState.CallM, prevEscaping := false,
          state := EState.Plain } := by
      simp only [stepChar]
      rw [if_neg hc]
      simp [hal]
    rw [show n + 2 = (n + 1) + 1 by rfl,
      runFrom_cont fs (n + 1) cfg _ '\\' (c :: rest) hin h1,
      runFrom_cont fs n _ _ c rest rfl h2]

/-- C7, witness: `\%` after output `o` appends the literal `%`. -/
theorem c7_witness :
    runFrom noFs 3 { initConfig (toL "\\%") with output := toL "o" } =
      runFrom noFs 1 { initConfig [] with
        output := toL "o%",
        prevState := EState.CallM } :=
  ((c7_escape_set noFs 1 { initConfig (toL "\\%") with output := toL "o" }
    '%' [] rfl rfl rfl).1 (by decide))

/-- C8: at end of input the engine succeeds exactly when (a) the mode is
Plain and the brace depth is 0, emitting the accumulated output, or
(b) the mode is CallMacro with a pending escape, in which case a single
backslash is appended to the output; every other terminal configuration
fails with "Incomplete macro.".  The concrete conjuncts run `a\`
(trailing lone backslash, succeeds with output `a\`) and the unterminated
`\def{a}{x` (fails). -/
theorem c8_terminal :
    (∀ (fs : List Char → Option (List Char)) (n : Nat) (cfg : Config),
        cfg.input = [] →
        runFrom fs (n + 1) cfg =
          if cfg.state = EState.Plain ∧ cfg.braceCount = 0 then
            Outcome.ok cfg.output cfg.map cfg.log
          else if cfg.state = EState.CallM ∧ cfg.prevEscaping = true then
            Outcome.ok (cfg.output ++ ['\\']) cfg.map cfg.log
          else Outcome.err "Incomplete macro.") ∧
    engineRun 5 c8okInput = Outcome.ok (toL "a\\") [] [] ∧
    engineRun 20 c8badInput = Outcome.err "Incomplete macro." := by
  refine ⟨?_, by decide, by decide⟩
  intro fs n cfg hin
  simp only [runFrom, hin]
  unfold endCheck
  split_ifs <;> simp_all <;> tauto

/-- C8, witness: the empty input terminates in Plain at depth 0 and
emits the empty output. -/
theorem c8_witness :
    runFrom noFs 1 (initConfig []) = Outcome.ok [] [] [] := by
  have h := c8_terminal.1 noFs 0 (initConfig []) rfl
  simpa using h

/-- C10: built-in directive names take precedence over user bindings in
every macro-table state.  The concrete run `\def{if}{X}\ifdef{if}{Y}{Z}
\if{a}{T}{E}` shows that `\def` may bind the name `if`, that `\ifdef`
then reports it bound (emitting `Y`), and that invoking `\if{` still
dispatches to the built-in conditional (emitting `T`, not the binding
`X`).  The second conjunct: dispatch of each of the six built-in names
never selects a user-macro invocation.  The third conjunct: the dispatch
step on `\name{` depends only on the scanned name — for an arbitrary
configuration (in particular an arbitrary macro table) the successor
state is `dispatchName` of the name. -/
theorem c10_builtin_precedence :
    engineRun 80 c10input =
      Outcome.ok (toL "YT") [(toL "if", toL "X")] [] ∧
    (∀ s, (s = toL "def" ∨ s = toL "undef" ∨ s = toL "include" ∨
        s = toL "expandafter" ∨ s = toL "if" ∨ s = toL "ifdef") →
        dispatchName s ≠ EState.CustomMacroArg) ∧
    (∀ (fs : List Char → Option (List Char)) (cfg : Config)
        (rest : List Char), cfg.state = EState.CallM →
        cfg.prevEscaping = false →
        stepChar fs cfg '{' rest = StepOut.cont { cfg with
          input := rest, braceCount := cfg.braceCount + 1,
          macroName := if dispatchName cfg.macroName = EState.CustomMacroArg
                       then cfg.macroName else [],
          prevState := EState.CallM, prevEscaping := false,
          state := dispatchName cfg.macroName }) := by
  refine ⟨by decide, ?_, ?_⟩
  · intro s hs
    rcases hs with h | h | h | h | h | h <;> subst h <;> decide
  · intro fs cfg rest hst hesc
    simp [stepChar, hst, hesc]

/-- C10, witness: the built-in name `if` does not dispatch to a
user-macro invocation. -/
theorem c10_witness : dispatchName (toL "if") ≠ EState.CustomMacroArg :=
  c10_builtin_precedence.2.1 (toL "if")
    (Or.inr (Or.inr (Or.inr (Or.inr (Or.inl rfl)))))

/-- Scanning backslash-free text in mode Plain at depth 0 copies it to the
output and terminates successfully at end of input. -/
theorem plain_finish (fs : List Char → Option (List Char)) :
    ∀ (S : List Char) (cfg : Config) (n : Nat),
      cfg.state = EState.Plain → cfg.prevEscaping = false →
      (∀ c ∈ S, c ≠ '\\') → cfg.braceCount = 0 → cfg.input = S →
      runFrom fs (S.length + 1 + n) cfg =
        Outcome.ok (cfg.output ++ S) cfg.map cfg.log := by
  intro S
  induction S with
  | nil =>
    intro cfg n hst hesc hS hbc hin
    rw [show ([] : List Char).length + 1 + n = n + 1 by simp [Nat.add_comm]]
    simp [runFrom, hin, endCheck, hst, hbc]
  | cons c cs ih =>
    intro cfg n hst hesc hS hbc hin
    have hc : c ≠ '\\' := hS c (List.mem_cons_self c cs)
    have hcs : ∀ d ∈ cs, d ≠ '\\' := fun d hd => hS d (List.mem_cons_of_mem c hd)
    have hb : (c == '\\') = false := by simp [hc]
    have hstep : stepChar fs cfg c cs = StepOut.cont { cfg with
        input := cs, output := cfg.output ++ [c],
        prevState := EState.Plain, prevEscaping := false } := by
      simp [stepChar, hst, hesc, hc, hb]
    rw [show (c :: cs).length + 1 + n = (cs.length + 1 + n) + 1 by
      simp [List.length_cons]; omega]
    rw [runFrom_cont fs (cs.length + 1 + n) cfg _ c cs hin hstep]
    rw [ih { cfg with
        input := cs, output := cfg.output ++ [c],
        prevState := EState.Plain, prevEscaping := false } n hst rfl hcs hbc rfl]
    simp

/-- Capturing an `\include` path: brace- and backslash-free characters are
appended verbatim to the path scratch, and the closing `}` queries the
file system with exactly the accumulated path, logs it, and pushes the
preprocessed file content. -/
theorem include_capture (fs : List Char → Option (List Char)) :
    ∀ (p : List Char) (cfg : Config) (n : Nat) (rest content : List Char),
      cfg.state = EState.Include → cfg.prevEscaping = false →
      (∀ c ∈ p, c ≠ '\\' ∧ c ≠ '{' ∧ c ≠ '}') →
      cfg.braceCount = 1 →
      cfg.input = p ++ '}' :: rest →
      fs (cfg.arg ++ p) = some content →
      runFrom fs (p.length + 1 + n) cfg = runFrom fs n { cfg with
        input := preprocText content ++ rest, arg := [],
        braceCount := 0, log := cfg.log ++ [cfg.arg ++ p],
        prevState := EState.Include, prevEscaping := false,
        state := EState.Plain } := by
  intro p
  induction p with
  | nil =>
    intro cfg n rest content hst hesc hp hbc hin hfs
    rw [List.append_nil] at hfs
    have hstep : stepChar fs cfg '}' rest = StepOut.cont { cfg with
        input := preprocText content ++ rest, arg := [],
        braceCount := 0, log := cfg.log ++ [cfg.arg],
        prevState := EState.Include, prevEscaping := false,
        state := EState.Plain } := by
      simp [stepChar, hst, hesc, hbc, hfs]
    rw [show ([] : List Char).length + 1 + n = n + 1 by simp [Nat.add_comm]]
    rw [List.nil_append] at hin
    rw [runFrom_cont fs n cfg _ '}' rest hin hstep]
    congr 1
    simp
  | cons c cs ih =>
    intro cfg n rest content hst hesc hp hbc hin hfs
    have hc := hp c (List.mem_cons_self c cs)
    have hcs : ∀ d ∈ cs, d ≠ '\\' ∧ d ≠ '{' ∧ d ≠ '}' :=
      fun d hd => hp d (List.mem_cons_of_mem c hd)
    have hb : (c == '\\') = false := by simp [hc.1]
    have hstep : stepChar fs cfg c (cs ++ '}' :: rest) = StepOut.cont { cfg with
        input := cs ++ '}' :: rest, arg := cfg.arg ++ [c],
        prevState := EState.Include, prevEscaping := false } := by
      simp [stepChar, hst, hesc, hc.1, hc.2.1, hc.2.2, hb]
    rw [show (c :: cs).length + 1 + n = (cs.length + 1 + n) + 1 by
      simp [List.length_cons]; omega]
    rw [runFrom_cont fs (cs.length + 1 + n) cfg _ c (cs ++ '}' :: rest)
      (by rw [hin]; rfl) hstep]
    rw [ih { cfg with
        input := cs ++ '}' :: rest, arg := cfg.arg ++ [c],
        prevState := EState.Include, prevEscaping := false } n rest content
      hst rfl hcs hbc rfl (by simpa using hfs)]
    congr 1
    simp


/-- C9 (amended): no macro expansion is applied to an `\include` path —
for every brace- and backslash-free argument `p`, the closing `}` hands
the file system exactly `p`, records exactly `p` in the read log, and
pushes the preprocessed content of the file; when the argument contains
braces the path is *not* the literal argument text: interior unescaped
`{` are dropped (see the counterexample). -/
theorem c9_amended_path (fs : List Char → Option (List Char))
    (p rest content : List Char) (n : Nat) (cfg : Config)
    (hst : cfg.state = EState.Include) (hesc : cfg.prevEscaping = false)
    (harg : cfg.arg = [])
    (hp : ∀ c ∈ p, c ≠ '\\' ∧ c ≠ '{' ∧ c ≠ '}')
    (hbc : cfg.braceCount = 1)
    (hin : cfg.input = p ++ '}' :: rest)
    (hfs : fs p = some content) :
    runFrom fs (p.length + 1 + n) cfg = runFrom fs n { cfg with
      input := preprocText content ++ rest, arg := [],
      braceCount := 0, log := cfg.log ++ [p],
      prevState := EState.Include, prevEscaping := false,
      state := EState.Plain } := by
  rw [include_capture fs p cfg n rest content hst hesc hp hbc hin
    (by rw [harg, List.nil_append]; exact hfs)]
  congr 1
  simp [harg]

/-- C9, witness: capturing path `q` reads file `q` and logs `q`. -/
theorem c9_witness :
    runFrom c9wfs (1 + 1 + 1)
      { initConfig (toL "q\x7d") with state := EState.Include, braceCount := 1 } =
      runFrom c9wfs 1 { initConfig (toL "q\x7d") with
        input := preprocText (toL "YY"), arg := [], braceCount := 0,
        log := [toL "q"], prevState := EState.Include, prevEscaping := false,
        state := EState.Plain } := by
  have h := c9_amended_path c9wfs (toL "q") [] (toL "YY") 1
    { initConfig (toL "q\x7d") with state := EState.Include, braceCount := 1 }
    rfl rfl rfl (by decide) rfl rfl rfl
  simpa using h

/-- Consuming an `\if` condition: a backslash-free group whose interior
keeps the depth positive adds one to the scalar count per character
(braces included), and the closing `}` records emptiness of the count and
enters `Then`. -/
theorem ifcond_consume (fs : List Char → Option (List Char)) :
    ∀ (C : List Char) (cfg : Config) (n : Nat) (rest : List Char),
      cfg.state = EState.IfCond → cfg.prevEscaping = false →
      (∀ c ∈ C, c ≠ '\\') →
      (∀ i : Nat, 1 ≤ cfg.braceCount + deltaSum (C.take i)) →
      cfg.braceCount + deltaSum C = 1 →
      cfg.input = C ++ '}' :: rest →
      runFrom fs (C.length + 1 + n) cfg = runFrom fs n { cfg with
        input := rest, braceCount := 0, condCount := 0,
        condIsEmpty := decide (cfg.condCount + C.length = 0),
        prevState := EState.IfCond, prevEscaping := false,
        state := EState.Then } := by
  intro C
  induction C with
  | nil =>
    intro cfg n rest hst hesc hC hpre hsum hin
    have hbc : cfg.braceCount = 1 := by
      simpa [deltaSum] using hsum
    have hstep : stepChar fs cfg '}' rest = StepOut.cont { cfg with
        input := rest, braceCount := 0, condCount := 0,
        condIsEmpty := decide (cfg.condCount = 0),
        prevState := EState.IfCond, prevEscaping := false,
        state := EState.Then } := by
      simp [stepChar, hst, hesc, hbc]
    rw [show ([] : List Char).length + 1 + n = n + 1 by simp [Nat.add_comm]]
    rw [List.nil_append] at hin
    rw [runFrom_cont fs n cfg _ '}' rest hin hstep]
    congr 1
  | cons c cs ih =>
    intro cfg n rest hst hesc hC hpre hsum hin
    have hc : c ≠ '\\' := hC c (List.mem_cons_self c cs)
    have hcs : ∀ d ∈ cs, d ≠ '\\' := fun d hd => hC d (List.mem_cons_of_mem c hd)
    have hb : (c == '\\') = false := by simp [hc]
    have hd1 : deltaSum ((c :: cs).take 1) = braceDelta c := by
      simp [List.take_succ_cons, deltaSum]
    have hdsum : deltaSum (c :: cs) = braceDelta c + deltaSum cs := rfl
    have hpre' : ∀ i : Nat,
        1 ≤ (cfg.braceCount + braceDelta c) + deltaSum (cs.take i) := by
      intro i
      have := hpre (i + 1)
      simp only [List.take_succ_cons, deltaSum] at this
      omega
    have hsum' : (cfg.braceCount + braceDelta c) + deltaSum cs = 1 := by
      rw [hdsum] at hsum
      omega
    have hfuel : (c :: cs).length + 1 + n = (cs.length + 1 + n) + 1 := by
      simp [List.length_cons]
      omega
    by_cases hc1 : c = '}'
    · subst hc1
      have hne : ¬ (cfg.braceCount - 1 = 0) := by
        have := hpre 1
        rw [hd1] at this
        simp [braceDelta] at this
        omega
      have hstep : stepChar fs cfg '}' (cs ++ '}' :: rest) = StepOut.cont
          { cfg with
            input := cs ++ '}' :: rest, braceCount := cfg.braceCount - 1,
            condCount := cfg.condCount + 1,
            prevState := EState.IfCond, prevEscaping := false } := by
        simp [stepChar, hst, hesc, hne]
      rw [hfuel,
        runFrom_cont fs (cs.length + 1 + n) cfg _ '}' (cs ++ '}' :: rest)
          (by rw [hin]; rfl) hstep,
        ih { cfg with
            input := cs ++ '}' :: rest, braceCount := cfg.braceCount - 1,
            condCount := cfg.condCount + 1,
            prevState := EState.IfCond, prevEscaping := false } n rest
          hst rfl hcs
          (by simpa [braceDelta] using hpre')
          (by simpa [braceDelta] using hsum') rfl]
      congr 1 <;> simp [decide_eq_decide] <;> omega
    · by_cases hc2 : c = '{'
      · subst hc2
        have hstep : stepChar fs cfg '{' (cs ++ '}' :: rest) = StepOut.cont
            { cfg with
              input := cs ++ '}' :: rest, braceCount := cfg.braceCount + 1,
              condCount := cfg.condCount + 1,
              prevState := EState.IfCond, prevEscaping := false } := by
          simp [stepChar, hst, hesc]
        rw [hfuel,
          runFrom_cont fs (cs.length + 1 + n) cfg _ '{' (cs ++ '}' :: rest)
            (by rw [hin]; rfl) hstep,
          ih { cfg with
              input := cs ++ '}' :: rest, braceCount := cfg.braceCount + 1,
              condCount := cfg.condCount + 1,
              prevState := EState.IfCond, prevEscaping := false } n rest
            hst rfl hcs
            (by simpa [braceDelta] using hpre')
            (by simpa [braceDelta] using hsum') rfl]
        congr 1 <;> simp [decide_eq_decide] <;> omega
      · have hstep : stepChar fs cfg c (cs ++ '}' :: rest) = StepOut.cont
            { cfg with
              input := cs ++ '}' :: rest,
              condCount := cfg.condCount + 1,
              prevState := EState.IfCond, prevEscaping := false } := by
          simp [stepChar, hst, hesc, hc1, hc2, hb]
        have hbd : braceDelta c = 0 := by
          simp [braceDelta, hc1, hc2]
        rw [hfuel,
          runFrom_cont fs (cs.length + 1 + n) cfg _ c (cs ++ '}' :: rest)
            (by rw [hin]; rfl) hstep,
          ih { cfg with
              input := cs ++ '}' :: rest,
              condCount := cfg.condCount + 1,
              prevState := EState.IfCond, prevEscaping := false } n rest
            hst rfl hcs
            (by intro i; have := hpre' i; rw [hbd] at this; simpa using this)
            (by have := hsum'; rw [hbd] at this; simpa using this) rfl]
        congr 1 <;> simp [decide_eq_decide] <;> omega

/-- Capturing a then-branch of plain scalars: the characters are retained
in the branch scratch exactly when the condition was nonempty, and the
closing `}` enters `Else`. -/
theorem then_capture (fs : List Char → Option (List Char)) :
    ∀ (T : List Char) (cfg : Config) (n : Nat) (rest : List Char),
      cfg.state = EState.Then → cfg.prevEscaping = false →
      cfg.prevState = EState.Then →
      (∀ c ∈ T, c ≠ '\\' ∧ c ≠ '{' ∧ c ≠ '}') →
      cfg.braceCount = 1 →
      cfg.input = T ++ '}' :: rest →
      runFrom fs (T.length + 1 + n) cfg = runFrom fs n { cfg with
        input := rest, braceCount := 0,
        macroName := cfg.macroName ++ (if cfg.condIsEmpty then [] else T),
        prevState := EState.Then, prevEscaping := false,
        state := EState.Else } := by
  intro T
  induction T with
  | nil =>
    intro cfg n rest hst hesc hprev hT hbc hin
    have hstep : stepChar fs cfg '}' rest = StepOut.cont { cfg with
        input := rest, braceCount := 0,
        prevState := EState.Then, prevEscaping := false,
        state := EState.Else } := by
      simp [stepChar, hst, hesc, hbc]
    rw [show ([] : List Char).length + 1 + n = n + 1 by simp [Nat.add_comm]]
    rw [List.nil_append] at hin
    rw [runFrom_cont fs n cfg _ '}' rest hin hstep]
    congr 1 <;> simp
  | cons c cs ih =>
    intro cfg n rest hst hesc hprev hT hbc hin
    have hc := hT c (List.mem_cons_self c cs)
    have hcs : ∀ d ∈ cs, d ≠ '\\' ∧ d ≠ '{' ∧ d ≠ '}' :=
      fun d hd => hT d (List.mem_cons_of_mem c hd)
    have hb : (c == '\\') = false := by simp [hc.1]
    have hstep : stepChar fs cfg c (cs ++ '}' :: rest) = StepOut.cont
        { cfg with
          input := cs ++ '}' :: rest,
          macroName := if cfg.condIsEmpty then cfg.macroName
                       else cfg.macroName ++ [c],
          prevState := EState.Then, prevEscaping := false } := by
      simp [stepChar, hst, hesc, hprev, hc.1, hc.2.1, hc.2.2, hb]
    rw [show (c :: cs).length + 1 + n = (cs.length + 1 + n) + 1 by
        simp [List.length_cons]; omega,
      runFrom_cont fs (cs.length + 1 + n) cfg _ c (cs ++ '}' :: rest)
        (by rw [hin]; rfl) hstep,
      ih { cfg with
          input := cs ++ '}' :: rest,
          macroName := if cfg.condIsEmpty then cfg.macroName
                       else cfg.macroName ++ [c],
          prevState := EState.Then, prevEscaping := false } n rest
        hst rfl rfl hcs hbc rfl]
    congr 1
    by_cases hce : cfg.condIsEmpty = true <;> simp [hce]

/-- Capturing an else-branch of plain scalars: the characters are retained
exactly when the condition was empty, and the closing `}` pushes the
retained branch onto the expansion stack and returns to `Plain`. -/
theorem else_capture (fs : List Char → Option (List Char)) :
    ∀ (E : List Char) (cfg : Config) (n : Nat) (rest : List Char),
      cfg.state = EState.Else → cfg.prevEscaping = false →
      cfg.prevState = EState.Else →
      (∀ c ∈ E, c ≠ '\\' ∧ c ≠ '{' ∧ c ≠ '}') →
      cfg.braceCount = 1 →
      cfg.input = E ++ '}' :: rest →
      runFrom fs (E.length + 1 + n) cfg = runFrom fs n { cfg with
        input := (cfg.macroName ++ (if cfg.condIsEmpty then E else [])) ++ rest,
        braceCount := 0, macroName := [],
        prevState := EState.Else, prevEscaping := false,
        state := EState.Plain } := by
  intro E
  induction E with
  | nil =>
    intro cfg n rest hst hesc hprev hE hbc hin
    have hstep : stepChar fs cfg '}' rest = StepOut.cont { cfg with
        input := cfg.macroName ++ rest, braceCount := 0, macroName := [],
        prevState := EState.Else, prevEscaping := false,
        state := EState.Plain } := by
      simp [stepChar, hst, hesc, hbc]
    rw [show ([] : List Char).length + 1 + n = n + 1 by simp [Nat.add_comm]]
    rw [List.nil_append] at hin
    rw [runFrom_cont fs n cfg _ '}' rest hin hstep]
    congr 1 <;> simp
  | cons c cs ih =>
    intro cfg n rest hst hesc hprev hE hbc hin
    have hc := hE c (List.mem_cons_self c cs)
    have hcs : ∀ d ∈ cs, d ≠ '\\' ∧ d ≠ '{' ∧ d ≠ '}' :=
      fun d hd => hE d (List.mem_cons_of_mem c hd)
    have hb : (c == '\\') = false := by simp [hc.1]
    have hstep : stepChar fs cfg c (cs ++ '}' :: rest) = StepOut.cont
        { cfg with
          input := cs ++ '}' :: rest,
          macroName := if cfg.condIsEmpty then cfg.macroName ++ [c]
                       else cfg.macroName,
          prevState := EState.Else, prevEscaping := false } := by
      simp [stepChar, hst, hesc, hprev, hc.1, hc.2.1, hc.2.2, hb]
    rw [show (c :: cs).length + 1 + n = (cs.length + 1 + n) + 1 by
        simp [List.length_cons]; omega,
      runFrom_cont fs (cs.length + 1 + n) cfg _ c (cs ++ '}' :: rest)
        (by rw [hin]; rfl) hstep,
      ih { cfg with
          input := cs ++ '}' :: rest,
          macroName := if cfg.condIsEmpty then cfg.macroName ++ [c]
                       else cfg.macroName,
          prevState := EState.Else, prevEscaping := false } n rest
        hst rfl rfl hcs hbc rfl]
    congr 1
    by_cases hce : cfg.condIsEmpty = true <;> simp [hce]

/-- C6: for every backslash-free condition `C` whose interior braces
balance (every prefix has nonnegative depth and the total is zero) and
all plain-scalar branch groups `T` and `E`, the run of `\if{C}{T}{E}`
succeeds and its output is exactly one of `T` or `E`: it is `T` iff `C`
contains at least one scalar, where scalars are counted including
interior braces — in particular `C = {}` (two scalars) selects `T`. -/
theorem c6_if_branches (C T E : List Char)
    (hC : ∀ c ∈ C, c ≠ '\\')
    (hCpre : ∀ i : Nat, 0 ≤ deltaSum (C.take i))
    (hCsum : deltaSum C = 0)
    (hT : ∀ c ∈ T, c ≠ '\\' ∧ c ≠ '{' ∧ c ≠ '}')
    (hE : ∀ c ∈ E, c ≠ '\\' ∧ c ≠ '{' ∧ c ≠ '}') :
    engineRun (C.length + 2 * T.length + 2 * E.length + 10) (ifInput C T E) =
      Outcome.ok (if C = [] then E else T) [] [] := by
  show runFrom noFs _ (initConfig (ifInput C T E)) = _
  have h1 : runFrom noFs ((C.length + 2 * T.length + 2 * E.length + 9) + 1)
      (initConfig (ifInput C T E)) =
      runFrom noFs (C.length + 2 * T.length + 2 * E.length + 9)
      { initConfig (ifInput C T E) with
        input := 'i' :: 'f' :: '{' ::
          (C ++ '}' :: '{' :: (T ++ '}' :: '{' :: (E ++ ['}']))),
        prevEscaping := true, state := EState.CallM } :=
    runFrom_cont noFs _ _ _ '\\'
      ('i' :: 'f' :: '{' :: (C ++ '}' :: '{' :: (T ++ '}' :: '{' :: (E ++ ['}']))))
      rfl rfl
  have h2 : runFrom noFs ((C.length + 2 * T.length + 2 * E.length + 8) + 1)
      { initConfig (ifInput C T E) with
        input := 'i' :: 'f' :: '{' ::
          (C ++ '}' :: '{' :: (T ++ '}' :: '{' :: (E ++ ['}']))),
        prevEscaping := true, state := EState.CallM } =
      runFrom noFs (C.length + 2 * T.length + 2 * E.length + 8)
      { initConfig (ifInput C T E) with
        input := 'f' :: '{' ::
          (C ++ '}' :: '{' :: (T ++ '}' :: '{' :: (E ++ ['}']))),
        macroName := ['i'], prevState := EState.CallM,
        state := EState.CallM } :=
    runFrom_cont noFs _ _ _ 'i'
      ('f' :: '{' :: (C ++ '}' :: '{' :: (T ++ '}' :: '{' :: (E ++ ['}']))))
      rfl rfl
  have h3 : runFrom noFs ((C.length + 2 * T.length + 2 * E.length + 7) + 1)
      { initConfig (ifInput C T E) with
        input := 'f' :: '{' ::
          (C ++ '}' :: '{' :: (T ++ '}' :: '{' :: (E ++ ['}']))),
        macroName := ['i'], prevState := EState.CallM,
        state := EState.CallM } =
      runFrom noFs (C.length + 2 * T.length + 2 * E.length + 7)
      { initConfig (ifInput C T E) with
        input := '{' :: (C ++ '}' :: '{' :: (T ++ '}' :: '{' :: (E ++ ['}']))),
        macroName := ['i', 'f'], prevState := EState.CallM,
        state := EState.CallM } :=
    runFrom_cont noFs _ _ _ 'f'
      ('{' :: (C ++ '}' :: '{' :: (T ++ '}' :: '{' :: (E ++ ['}']))))
      rfl rfl
  have h4 : runFrom noFs ((C.length + 2 * T.length + 2 * E.length + 6) + 1)
      { initConfig (ifInput C T E) with
        input := '{' :: (C ++ '}' :: '{' :: (T ++ '}' :: '{' :: (E ++ ['}']))),
        macroName := ['i', 'f'], prevState := EState.CallM,
        state := EState.CallM } =
      runFrom noFs (C.length + 2 * T.length + 2 * E.length + 6)
      { initConfig (ifInput C T E) with
        input := C ++ '}' :: '{' :: (T ++ '}' :: '{' :: (E ++ ['}'])),
        braceCount := 1, prevState := EState.CallM,
        state := EState.IfCond } :=
    runFrom_cont noFs _ _ _ '{'
      (C ++ '}' :: '{' :: (T ++ '}' :: '{' :: (E ++ ['}'])))
      rfl rfl
  have h5 : runFrom noFs (C.length + 1 + (2 * T.length + 2 * E.length + 5))
      { initConfig (ifInput C T E) with
        input := C ++ '}' :: '{' :: (T ++ '}' :: '{' :: (E ++ ['}'])),
        braceCount := 1, prevState := EState.CallM,
        state := EState.IfCond } =
      runFrom noFs (2 * T.length + 2 * E.length + 5)
      { initConfig (ifInput C T E) with
        input := '{' :: (T ++ '}' :: '{' :: (E ++ ['}'])),
        condIsEmpty := decide (0 + C.length = 0),
        prevState := EState.IfCond, state := EState.Then } :=
    ifcond_consume noFs C _ _ _ rfl rfl hC
      (by intro i
          have h := hCpre i
          show (1 : Int) ≤ 1 + deltaSum (List.take i C)
          omega)
      (by show (1 : Int) + deltaSum C = 1
          omega)
      rfl
  have h6 : runFrom noFs ((2 * T.length + 2 * E.length + 4) + 1)
      { initConfig (ifInput C T E) with
        input := '{' :: (T ++ '}' :: '{' :: (E ++ ['}'])),
        condIsEmpty := decide (0 + C.length = 0),
        prevState := EState.IfCond, state := EState.Then } =
      runFrom noFs (2 * T.length + 2 * E.length + 4)
      { initConfig (ifInput C T E) with
        input := T ++ '}' :: '{' :: (E ++ ['}']),
        braceCount := 1, condIsEmpty := decide (0 + C.length = 0),
        prevState := EState.Then, state := EState.Then } :=
    runFrom_cont noFs _ _ _ '{' (T ++ '}' :: '{' :: (E ++ ['}'])) rfl
      (by simp [stepChar, initConfig])
  have h7 : runFrom noFs (T.length + 1 + (T.length + 2 * E.length + 3))
      { initConfig (ifInput C T E) with
        input := T ++ '}' :: '{' :: (E ++ ['}']),
        braceCount := 1, condIsEmpty := decide (0 + C.length = 0),
        prevState := EState.Then, state := EState.Then } =
      runFrom noFs (T.length + 2 * E.length + 3)
      { initConfig (ifInput C T E) with
        input := '{' :: (E ++ ['}']),
        macroName := if decide (0 + C.length = 0) then [] else T,
        condIsEmpty := decide (0 + C.length = 0),
        prevState := EState.Then, state := EState.Else } :=
    then_capture noFs T _ _ _ rfl rfl rfl hT rfl rfl
  have h8 : runFrom noFs ((T.length + 2 * E.length + 2) + 1)
      { initConfig (ifInput C T E) with
        input := '{' :: (E ++ ['}']),
        macroName := if decide (0 + C.length = 0) then [] else T,
        condIsEmpty := decide (0 + C.length = 0),
        prevState := EState.Then, state := EState.Else } =
      runFrom noFs (T.length + 2 * E.length + 2)
      { initConfig (ifInput C T E) with
        input := E ++ ['}'], braceCount := 1,
        macroName := if decide (0 + C.length = 0) then [] else T,
        condIsEmpty := decide (0 + C.length = 0),
        prevState := EState.Else, state := EState.Else } :=
    runFrom_cont noFs _ _ _ '{' (E ++ ['}']) rfl
      (by simp [stepChar, initConfig])
  have h9 : runFrom noFs (E.length + 1 + (T.length + E.length + 1))
      { initConfig (ifInput C T E) with
        input := E ++ ['}'], braceCount := 1,
        macroName := if decide (0 + C.length = 0) then [] else T,
        condIsEmpty := decide (0 + C.length = 0),
        prevState := EState.Else, state := EState.Else } =
      runFrom noFs (T.length + E.length + 1)
      { initConfig (ifInput C T E) with
        input := ((if decide (0 + C.length = 0) then [] else T) ++
          (if decide (0 + C.length = 0) then E else [])) ++ [],
        condIsEmpty := decide (0 + C.length = 0),
        prevState := EState.Else, state := EState.Plain } :=
    else_capture noFs E _ _ _ rfl rfl rfl hE rfl rfl
  rw [show C.length + 2 * T.length + 2 * E.length + 10 =
    (C.length + 2 * T.length + 2 * E.length + 9) + 1 by omega, h1]
  rw [show C.length + 2 * T.length + 2 * E.length + 9 =
    (C.length + 2 * T.length + 2 * E.length + 8) + 1 by omega, h2]
  rw [show C.length + 2 * T.length + 2 * E.length + 8 =
    (C.length + 2 * T.length + 2 * E.length + 7) + 1 by omega, h3]
  rw [show C.length + 2 * T.length + 2 * E.length + 7 =
    (C.length + 2 * T.length + 2 * E.length + 6) + 1 by omega, h4]
  rw [show C.length + 2 * T.length + 2 * E.length + 6 =
    C.length + 1 + (2 * T.length + 2 * E.length + 5) by omega, h5]
  rw [show 2 * T.length + 2 * E.length + 5 =
    (2 * T.length + 2 * E.length + 4) + 1 by omega, h6]
  rw [show 2 * T.length + 2 * E.length + 4 =
    T.length + 1 + (T.length + 2 * E.length + 3) by omega, h7]
  rw [show T.length + 2 * E.length + 3 =
    (T.length + 2 * E.length + 2) + 1 by omega, h8]
  rw [show T.length + 2 * E.length + 2 =
    E.length + 1 + (T.length + E.length + 1) by omega, h9]
  by_cases hCe : C = []
  · subst hCe
    have hSeq : ((if decide (0 + ([] : List Char).length = 0) then []
        else T) ++ (if decide (0 + ([] : List Char).length = 0) then E
        else [])) ++ [] = E := by simp
    rw [hSeq]
    rw [show T.length + E.length + 1 = E.length + 1 + T.length by omega]
    rw [plain_finish noFs E _ T.length rfl rfl (fun c hc => (hE c hc).1)
      rfl rfl]
    simp [initConfig]
  · have hSeq : ((if decide (0 + C.length = 0) then [] else T) ++
        (if decide (0 + C.length = 0) then E else [])) ++ [] = T := by
      simp [hCe]
    rw [hSeq]
    rw [show T.length + E.length + 1 = T.length + 1 + E.length by omega]
    rw [plain_finish noFs T _ E.length rfl rfl (fun c hc => (hT c hc).1)
      rfl rfl]
    simp [hCe, initConfig]

/-- C6, witness: `\if{{}}{y}{n}` emits `y` — the braces-only condition
counts as nonempty. -/
theorem c6_witness :
    engineRun 16 (ifInput (toL "\x7b\x7d") (toL "y") (toL "n")) =
      Outcome.ok (toL "y") [] [] := by
  have h := c6_if_branches (toL "\x7b\x7d") (toL "y") (toL "n")
    (by decide)
    (by intro i
        match i with
        | 0 => decide
        | 1 => decide
        | (k+2) => rw [List.take_of_length_le (by show (2 : Nat) ≤ k + 2; omega)]; decide)
    (by decide) (by decide) (by decide)
  simpa using h
